import Mathlib

/-!
# Formal model of the prediction server's drift monitor

A shallow embedding of `src/api/prediction_server.py`: the per-feature running
statistics (Welford updates in `update_feature_statistics`), the drift
classifier `detect_data_drift`, and the `/predict` handler's orchestration.

Modelling conventions:
* Python floats are modelled as real numbers (`ℝ`).
* Python dicts are modelled as association lists (`List (String × _)`); the
  code never inserts a duplicate key.
* Python truthiness of `feature_names` / `feature_statistics` (`if not x`)
  is modelled explicitly: `None` and the empty list/dict are both falsy.
* The Prometheus counter `DATA_DRIFT_DETECTIONS` (one label per feature) is
  modelled as a function `String → ℕ`, incremented once per append to
  `drift_features`, exactly as in the loop of `detect_data_drift`.
* The HTTP layer is reduced to an outcome type: `modelNotLoaded` stands for
  the 503 response, `missingFeatures` for the 400 response raised by the
  `Missing features` check, and `ok` for the 200 response (only the drift
  telemetry of the response path is relevant to the claims; the model's
  numeric prediction, timestamps and latency metrics carry no drift state).
-/

namespace PredictionServer

/-- Per-feature running statistics, one dict value of `feature_statistics`:
`{'mean': 0.0, 'std': 1.0, 'count': 0, 'sum': 0.0, 'sum_sq': 0.0}`.
Every entry is created with all five keys, so the `.get('mean', 0)` /
`.get('std', 1)` defaults in `detect_data_drift` never fire. -/
structure FeatureStats where
  count : Nat
  mean : ℝ
  sum : ℝ
  sum_sq : ℝ
  std : ℝ

/-- Association-list lookup, the model of Python `d[k]` / `k in d`
(`dictLookup d k = some v` iff `k in d` with value `v`). -/
def dictLookup {α : Type} : List (String × α) → String → Option α
  | [], _ => none
  | (k, v) :: rest, f => if k = f then some v else dictLookup rest f

/-- A request's feature map (`request.features : Dict[str, float]`). -/
abbrev Vec := List (String × ℝ)

/-- The statistics store (`feature_statistics` when it is not `None`). -/
abbrev StatsStore := List (String × FeatureStats)

/-- The key set of the statistics store. -/
def storeKeys (store : StatsStore) : List String := store.map Prod.fst

/-- The zeroed statistics a feature receives when the store is first created. -/
def initFeatureStats : FeatureStats :=
  { count := 0, mean := 0, sum := 0, sum_sq := 0, std := 1 }

/-- Lazy creation of the store: every expected feature, zeroed
(lines 225-228 of `prediction_server.py`). -/
def initStats (names : List String) : StatsStore :=
  names.map (fun feat => (feat, initFeatureStats))

/-- One Welford update for a single feature's statistics (the body of the
loop in `update_feature_statistics`, lines 235-251): increment `count`,
move `mean` by `delta / n`, add `delta * delta2` to `sum_sq`, and recompute
`std` as `sqrt(sum_sq / (n - 1))` when `n > 1`, else set it to `1.0`.
The `sum` key is never touched by the code. -/
noncomputable def welfordStep (value : ℝ) (stats : FeatureStats) : FeatureStats :=
  let count := stats.count + 1
  let n : ℝ := (count : ℝ)
  let delta := value - stats.mean
  let mean := stats.mean + delta / n
  let delta2 := value - mean
  let sum_sq := stats.sum_sq + delta * delta2
  let std := if 1 < count then Real.sqrt (sum_sq / (n - 1)) else 1
  { count := count, mean := mean, sum := stats.sum, sum_sq := sum_sq, std := std }

/-- In-place mutation of one key's statistics (`feature_statistics[feat] = ...`):
replace the entry for `f`, leave every other entry alone. (If `f` has no
entry the Python code would raise `KeyError`; this is unreachable because the
store is always created with an entry for every expected feature, and the
update loop only visits expected features. The model leaves the store
unchanged in that unreachable case.) -/
def modifyStat (store : StatsStore) (f : String) (upd : FeatureStats → FeatureStats) :
    StatsStore :=
  match store with
  | [] => []
  | (g, st) :: rest =>
      if g = f then (g, upd st) :: rest else (g, st) :: modifyStat rest f upd

/-- The update loop of `update_feature_statistics` (lines 231-251): iterate
over `feature_names`, skip features absent from the request, and apply one
Welford step to each present feature's entry. -/
noncomputable def updateLoop (features_dict : Vec) :
    List String → StatsStore → StatsStore
  | [], store => store
  | feat :: rest, store =>
      match dictLookup features_dict feat with
      | none => updateLoop features_dict rest store
      | some value => updateLoop features_dict rest (modifyStat store feat (welfordStep value))

/-- `update_feature_statistics` (lines 218-251): a no-op when
`feature_names` is falsy (`None` or empty); otherwise create the store if it
is `None`, then run the Welford update loop. Returns the new store value of
the global `feature_statistics`. -/
noncomputable def update_feature_statistics (feature_names : Option (List String))
    (feature_statistics : Option StatsStore) (features_dict : Vec) : Option StatsStore :=
  match feature_names with
  | none => feature_statistics
  | some names =>
      if names.isEmpty then feature_statistics
      else
        let store := feature_statistics.getD (initStats names)
        some (updateLoop features_dict names store)

/-- The accumulation of `drift_features` in `detect_data_drift`
(lines 196-212): walk `feature_names` in order; a feature enters the list
iff it is present in the request, it has an entry in the store, the entry's
`std` is positive, and `|value - mean| > 3 * std`. -/
noncomputable def drift_features (store : StatsStore) (features_dict : Vec) :
    List String → List String
  | [] => []
  | feat :: rest =>
      let tail := drift_features store features_dict rest
      match dictLookup features_dict feat, dictLookup store feat with
      | some value, some stats =>
          if 0 < stats.std ∧ 3 * stats.std < |value - stats.mean|
          then feat :: tail else tail
      | _, _ => tail

/-- `detect_data_drift` (lines 181-215), as the pure verdict
`(drift_detected, drift_features, drift_ratio)`. When `feature_names` or
`feature_statistics` is falsy (`None`, empty list, empty dict) the function
returns early with `(False, [], 0.0)`; otherwise the ratio is
`len(drift_features) / len(feature_names)` (guarded by `total > 0`, which in
this branch always holds). -/
noncomputable def detect_data_drift (feature_names : Option (List String))
    (feature_statistics : Option StatsStore) (features_dict : Vec) :
    Bool × List String × ℝ :=
  match feature_names, feature_statistics with
  | some (n₀ :: rest), some (e₀ :: es) =>
      let names := n₀ :: rest
      let store := e₀ :: es
      let df := drift_features store features_dict names
      let total := names.length
      let ratio : ℝ := if 0 < total then (df.length : ℝ) / (total : ℝ) else 0
      (decide (0 < df.length), df, ratio)
  | _, _ => (false, [], 0)

/-- The `Missing features` computation of the `/predict` handler
(lines 268-271): when `feature_names` is known, the expected features that
are absent from the request; the check is skipped entirely when
`feature_names` is falsy. (The Python code builds this as a set difference;
the model keeps `feature_names` order, which carries the same membership.) -/
def missing_features (feature_names : Option (List String)) (features_dict : Vec) :
    List String :=
  match feature_names with
  | none => []
  | some names => names.filter (fun f => (dictLookup features_dict f).isNone)

/-- The mutable server globals relevant to drift monitoring: `model` (only
whether it is loaded), `feature_names`, `feature_statistics`, and the
per-feature `DATA_DRIFT_DETECTIONS` counters. -/
structure ServerState where
  model_loaded : Bool
  feature_names : Option (List String)
  feature_statistics : Option StatsStore
  drift_counters : String → ℕ

/-- Outcome of one `/predict` request: 503 (`Model not loaded`), 400
(`Missing features: ...`), or 200 carrying the request's drift telemetry. -/
inductive PredictOutcome where
  | modelNotLoaded
  | missingFeatures (missing : List String)
  | ok (drift_detected : Bool) (df : List String) (drift_ratio : ℝ)

/-- The `/predict` handler (lines 254-298), restricted to the drift-relevant
state: reject with 503 when no model is loaded; reject with 400 naming the
missing features when any expected feature is absent; otherwise FIRST call
`update_feature_statistics` (line 275), THEN call `detect_data_drift`
(line 278) on the updated store, incrementing the per-feature drift counters
for each offending feature, and answer 200 with the verdict. -/
noncomputable def predict (st : ServerState) (features : Vec) :
    PredictOutcome × ServerState :=
  if st.model_loaded = false then (.modelNotLoaded, st)
  else
    let missing := missing_features st.feature_names features
    if missing.isEmpty = false then (.missingFeatures missing, st)
    else
      let store' := update_feature_statistics st.feature_names st.feature_statistics features
      let verdict := detect_data_drift st.feature_names store' features
      (.ok verdict.1 verdict.2.1 verdict.2.2,
       { st with feature_statistics := store',
                 drift_counters := fun g => st.drift_counters g + verdict.2.1.count g })

/-- Running `detect_data_drift` as a state step: it reads `feature_names`
and `feature_statistics`, never writes them, and its only state effect is
incrementing `DATA_DRIFT_DETECTIONS` once per offending feature. -/
noncomputable def classifyStep (st : ServerState) (features : Vec) :
    (Bool × List String × ℝ) × ServerState :=
  let verdict := detect_data_drift st.feature_names st.feature_statistics features
  (verdict,
   { st with drift_counters := fun g => st.drift_counters g + verdict.2.1.count g })

/-- A sequence of direct `update_feature_statistics` calls against a fresh
(`None`) store, with a fixed `feature_names`. -/
noncomputable def apply_updates (feature_names : Option (List String))
    (vecs : List Vec) : Option StatsStore :=
  vecs.foldl (fun s v => update_feature_statistics feature_names s v) none

/-- The flagging condition of `detect_data_drift` for one feature (line 210):
the feature is present in the request and in the store, the stored `std` is
positive, and the value lies more than `3 * std` from the stored `mean`. -/
def Offends (store : StatsStore) (vec : Vec) (f : String) : Prop :=
  ∃ value stats, dictLookup vec f = some value ∧ dictLookup store f = some stats ∧
    0 < stats.std ∧ 3 * stats.std < |value - stats.mean|

/-- The statistics a feature holds after `k ≥ 1` Welford updates that all
supplied the same value `v`: `count = k`, `mean = v`, `sum_sq = 0`, and
`std` is the cold default `1.0` after one update, `sqrt(0) = 0` afterwards. -/
def constStat (k : ℕ) (v : ℝ) : FeatureStats :=
  { count := k, mean := v, sum := 0, sum_sq := 0, std := if k = 1 then 1 else 0 }

/-- Claim C1 as stated: the drift verdict a handled `/predict` request
reports is the classification of the request against the statistics store
as it was BEFORE the request's values were folded in. -/
def ClaimC1 : Prop :=
  ∀ (st : ServerState) (vec : Vec) (d : Bool) (df : List String) (r : ℝ),
    (predict st vec).1 = PredictOutcome.ok d df r →
    (d, df, r) = detect_data_drift st.feature_names st.feature_statistics vec

/-- Claim C2 as stated: against a non-empty store, a feature is offending
exactly when it is present in both the vector and the expected feature set,
its running `count` is at least 1, its `std` is not 0, and
`|value - mean| > 3 * std`. -/
def ClaimC2 : Prop :=
  ∀ (names : List String) (store : StatsStore) (vec : Vec) (f : String),
    store ≠ [] →
    (f ∈ (detect_data_drift (some names) (some store) vec).2.1 ↔
      (f ∈ names ∧ ∃ value stats, dictLookup vec f = some value ∧
        dictLookup store f = some stats ∧ 1 ≤ stats.count ∧ stats.std ≠ 0 ∧
        3 * stats.std < |value - stats.mean|))

/-- The statistics the feature `temp` holds after a first update with `0`
followed by a second update with `100`: used in the analysis of claim C1. -/
noncomputable def statTemp2 : FeatureStats :=
  { count := 2, mean := 50, sum := 0, sum_sq := 5000, std := Real.sqrt 5000 }

/-! ## Basic lemmas about the dictionary model -/

theorem dictLookup_mem {α : Type} {l : List (String × α)} {f : String} {x : α}
    (h : dictLookup l f = some x) : (f, x) ∈ l := by
  induction l with
  | nil => simp [dictLookup] at h
  | cons p rest ih =>
      obtain ⟨k, v⟩ := p
      by_cases hk : k = f
      · subst hk
        simp [dictLookup] at h
        simp [h]
      · simp only [dictLookup, if_neg hk] at h
        exact List.mem_cons_of_mem _ (ih h)

theorem dictLookup_map {α : Type} (h : String → α) (names : List String) (f : String) :
    dictLookup (names.map (fun g => (g, h g))) f =
      if f ∈ names then some (h f) else none := by
  induction names with
  | nil => simp [dictLookup]
  | cons g rest ih =>
      by_cases hg : g = f
      · subst hg
        simp [dictLookup]
      · simp [dictLookup, hg, ih, List.mem_cons, Ne.symm hg]

theorem initStats_lookup (names : List String) (f : String) :
    dictLookup (initStats names) f =
      if f ∈ names then some initFeatureStats else none :=
  dictLookup_map (fun _ => initFeatureStats) names f

/-! ## Lemmas about `modifyStat` -/

theorem modifyStat_lookup_self (store : StatsStore) (f : String)
    (u : FeatureStats → FeatureStats) :
    dictLookup (modifyStat store f u) f = (dictLookup store f).map u := by
  induction store with
  | nil => simp [modifyStat, dictLookup]
  | cons p rest ih =>
      obtain ⟨g, st⟩ := p
      by_cases hg : g = f
      · subst hg
        simp [modifyStat, dictLookup]
      · simp [modifyStat, dictLookup, hg, ih]

theorem modifyStat_lookup_ne (store : StatsStore) {f g : String}
    (u : FeatureStats → FeatureStats) (hne : g ≠ f) :
    dictLookup (modifyStat store f u) g = dictLookup store g := by
  have hfg : ¬ (f = g) := fun h => hne h.symm
  induction store with
  | nil => simp [modifyStat]
  | cons p rest ih =>
      obtain ⟨k, st⟩ := p
      by_cases hk : k = f
      · simp [modifyStat, dictLookup, hk, hfg]
      · by_cases hkg : k = g
        · simp [modifyStat, dictLookup, hk, hkg, hne]
        · simp [modifyStat, dictLookup, hk, hkg, ih]

theorem modifyStat_keys (store : StatsStore) (f : String)
    (u : FeatureStats → FeatureStats) :
    storeKeys (modifyStat store f u) = storeKeys store := by
  induction store with
  | nil => rfl
  | cons p rest ih =>
      obtain ⟨k, st⟩ := p
      by_cases hk : k = f
      · simp [modifyStat, storeKeys, hk]
      · simp only [modifyStat, if_neg hk]
        simp [storeKeys] at ih ⊢
        exact ih

theorem modifyStat_forall {P : FeatureStats → Prop} {u : FeatureStats → FeatureStats}
    (hu : ∀ st, P st → P (u st)) :
    ∀ {store : StatsStore}, (∀ e ∈ store, P e.2) → ∀ (f : String),
      ∀ e ∈ modifyStat store f u, P e.2 := by
  intro store
  induction store with
  | nil => intro _ f e he; simp [modifyStat] at he
  | cons p rest ih =>
      intro hs f e he
      obtain ⟨k, st⟩ := p
      by_cases hk : k = f
      · simp only [modifyStat, if_pos hk] at he
        rcases List.mem_cons.mp he with h | h
        · subst h; exact hu st (hs (k, st) (List.mem_cons_self _ _))
        · exact hs e (List.mem_cons_of_mem _ h)
      · simp only [modifyStat, if_neg hk] at he
        rcases List.mem_cons.mp he with h | h
        · subst h; exact hs (k, st) (List.mem_cons_self _ _)
        · exact ih (fun e' he' => hs e' (List.mem_cons_of_mem _ he')) f e h

/-! ## Lemmas about `updateLoop` -/

theorem updateLoop_cons_none {vec : Vec} {g : String} (rest : List String)
    (store : StatsStore) (hvg : dictLookup vec g = none) :
    updateLoop vec (g :: rest) store = updateLoop vec rest store := by
  rw [updateLoop, hvg]

theorem updateLoop_cons_some {vec : Vec} {g : String} {v : ℝ} (rest : List String)
    (store : StatsStore) (hvg : dictLookup vec g = some v) :
    updateLoop vec (g :: rest) store =
      updateLoop vec rest (modifyStat store g (welfordStep v)) := by
  rw [updateLoop, hvg]

theorem updateLoop_keys (vec : Vec) (names : List String) (store : StatsStore) :
    storeKeys (updateLoop vec names store) = storeKeys store := by
  induction names generalizing store with
  | nil => rfl
  | cons g rest ih =>
      cases hvg : dictLookup vec g with
      | none => rw [updateLoop_cons_none rest store hvg]; exact ih store
      | some v =>
          rw [updateLoop_cons_some rest store hvg, ih, modifyStat_keys]

theorem updateLoop_forall {P : FeatureStats → Prop}
    (hu : ∀ v st, P st → P (welfordStep v st)) (vec : Vec) :
    ∀ (names : List String) {store : StatsStore}, (∀ e ∈ store, P e.2) →
      ∀ e ∈ updateLoop vec names store, P e.2 := by
  intro names
  induction names with
  | nil => intro store hs e he; exact hs e he
  | cons g rest ih =>
      intro store hs e he
      cases hvg : dictLookup vec g with
      | none =>
          rw [updateLoop_cons_none rest store hvg] at he
          exact ih hs e he
      | some v =>
          rw [updateLoop_cons_some rest store hvg] at he
          exact ih (modifyStat_forall (fun st h => hu v st h) hs g) e he

theorem updateLoop_cons_notmem (vec : Vec) {g : String} {names : List String}
    (hg : g ∉ names) (st : FeatureStats) (store : StatsStore) :
    updateLoop vec names ((g, st) :: store) = (g, st) :: updateLoop vec names store := by
  induction names generalizing store with
  | nil => rfl
  | cons f rest ih =>
      rw [List.mem_cons, not_or] at hg
      obtain ⟨hgf, hrest⟩ := hg
      cases hvf : dictLookup vec f with
      | none =>
          rw [updateLoop_cons_none rest _ hvf, updateLoop_cons_none rest _ hvf]
          exact ih hrest store
      | some v =>
          rw [updateLoop_cons_some rest _ hvf, updateLoop_cons_some rest _ hvf]
          have hfg : ¬ (g = f) := hgf
          have hmod : modifyStat ((g, st) :: store) f (welfordStep v) =
              (g, st) :: modifyStat store f (welfordStep v) := by
            simp [modifyStat, hfg]
          rw [hmod, ih hrest]

theorem updateLoop_lookup_vec_none (vec : Vec) {f : String}
    (hv : dictLookup vec f = none) (names : List String) (store : StatsStore) :
    dictLookup (updateLoop vec names store) f = dictLookup store f := by
  induction names generalizing store with
  | nil => rfl
  | cons g rest ih =>
      by_cases hg : g = f
      · rw [updateLoop_cons_none rest store (hg ▸ hv)]
        exact ih store
      · cases hvg : dictLookup vec g with
        | none =>
            rw [updateLoop_cons_none rest store hvg]
            exact ih store
        | some v =>
            rw [updateLoop_cons_some rest store hvg, ih,
              modifyStat_lookup_ne _ _ (fun h => hg h.symm)]

theorem updateLoop_lookup_notmem (vec : Vec) {f : String} {names : List String}
    (hf : f ∉ names) (store : StatsStore) :
    dictLookup (updateLoop vec names store) f = dictLookup store f := by
  induction names generalizing store with
  | nil => rfl
  | cons g rest ih =>
      rw [List.mem_cons, not_or] at hf
      obtain ⟨hfg, hrest⟩ := hf
      cases hvg : dictLookup vec g with
      | none =>
          rw [updateLoop_cons_none rest store hvg]
          exact ih hrest store
      | some v =>
          rw [updateLoop_cons_some rest store hvg, ih hrest,
            modifyStat_lookup_ne _ _ hfg]

theorem updateLoop_lookup_mem {vec : Vec} {f : String} {v : ℝ} {names : List String}
    (hnd : names.Nodup) (hf : f ∈ names) (hv : dictLookup vec f = some v)
    (store : StatsStore) :
    dictLookup (updateLoop vec names store) f =
      (dictLookup store f).map (welfordStep v) := by
  induction names generalizing store with
  | nil => simp at hf
  | cons g rest ih =>
      obtain ⟨hg_notmem, hnd'⟩ := List.nodup_cons.mp hnd
      by_cases hg : g = f
      · subst hg
        rw [updateLoop_cons_some rest store hv,
          updateLoop_lookup_notmem vec hg_notmem, modifyStat_lookup_self]
      · have hf' : f ∈ rest := by
          rcases List.mem_cons.mp hf with h | h
          · exact absurd h.symm hg
          · exact h
        cases hvg : dictLookup vec g with
        | none =>
            rw [updateLoop_cons_none rest store hvg]
            exact ih hnd' hf' store
        | some w =>
            rw [updateLoop_cons_some rest store hvg, ih hnd' hf',
              modifyStat_lookup_ne _ _ (fun h => hg h.symm)]

theorem updateLoop_map {names : List String} (hnd : names.Nodup) (vec : Vec)
    (s : String → FeatureStats) (m : String → ℝ)
    (hvec : ∀ g ∈ names, dictLookup vec g = some (m g)) :
    updateLoop vec names (names.map (fun g => (g, s g))) =
      names.map (fun g => (g, welfordStep (m g) (s g))) := by
  induction names with
  | nil => rfl
  | cons g rest ih =>
      obtain ⟨hg_notmem, hnd'⟩ := List.nodup_cons.mp hnd
      have hg := hvec g (List.mem_cons_self _ _)
      rw [List.map_cons, updateLoop_cons_some _ _ hg]
      have hmod : modifyStat ((g, s g) :: rest.map (fun x => (x, s x))) g
          (welfordStep (m g)) =
          (g, welfordStep (m g) (s g)) :: rest.map (fun x => (x, s x)) := by
        simp [modifyStat]
      rw [hmod, updateLoop_cons_notmem vec hg_notmem,
        ih hnd' (fun x hx => hvec x (List.mem_cons_of_mem _ hx)), List.map_cons]

/-! ## Lemmas about `drift_features` and `detect_data_drift` -/

theorem drift_features_cons_of_offends {store : StatsStore} {vec : Vec} {g : String}
    (rest : List String) (h : Offends store vec g) :
    drift_features store vec (g :: rest) = g :: drift_features store vec rest := by
  obtain ⟨value, stats, hv, hs, hc⟩ := h
  simp only [drift_features, hv, hs]
  rw [if_pos hc]

theorem drift_features_cons_of_not_offends {store : StatsStore} {vec : Vec} {g : String}
    (rest : List String) (h : ¬ Offends store vec g) :
    drift_features store vec (g :: rest) = drift_features store vec rest := by
  rw [drift_features]
  cases hv : dictLookup vec g with
  | none => rfl
  | some value =>
      cases hs : dictLookup store g with
      | none => rfl
      | some stats =>
          simp only []
          rw [if_neg (fun hc => h ⟨value, stats, hv, hs, hc⟩)]

theorem mem_drift_features {store : StatsStore} {vec : Vec} {names : List String}
    {f : String} :
    f ∈ drift_features store vec names ↔ f ∈ names ∧ Offends store vec f := by
  induction names with
  | nil => simp [drift_features]
  | cons g rest ih =>
      by_cases hg : Offends store vec g
      · rw [drift_features_cons_of_offends rest hg]
        constructor
        · intro hmem
          rcases List.mem_cons.mp hmem with h | h
          · exact ⟨h ▸ List.mem_cons_self _ _, h ▸ hg⟩
          · exact ⟨List.mem_cons_of_mem _ (ih.mp h).1, (ih.mp h).2⟩
        · intro ⟨hmem, hoff⟩
          rcases List.mem_cons.mp hmem with h | h
          · exact h ▸ List.mem_cons_self _ _
          · exact List.mem_cons_of_mem _ (ih.mpr ⟨h, hoff⟩)
      · rw [drift_features_cons_of_not_offends rest hg]
        constructor
        · intro hmem
          exact ⟨List.mem_cons_of_mem _ (ih.mp hmem).1, (ih.mp hmem).2⟩
        · intro ⟨hmem, hoff⟩
          rcases List.mem_cons.mp hmem with h | h
          · exact absurd (h ▸ hoff) hg
          · exact ih.mpr ⟨h, hoff⟩

theorem drift_features_eq_nil {store : StatsStore} {vec : Vec} {names : List String}
    (h : ∀ g ∈ names, ¬ Offends store vec g) :
    drift_features store vec names = [] := by
  induction names with
  | nil => rfl
  | cons g rest ih =>
      rw [drift_features_cons_of_not_offends rest (h g (List.mem_cons_self _ _))]
      exact ih (fun x hx => h x (List.mem_cons_of_mem _ hx))

theorem drift_features_eq_singleton {store : StatsStore} {vec : Vec}
    {names : List String} {f : String} (hnd : names.Nodup) (hf : f ∈ names)
    (h : ∀ g ∈ names, Offends store vec g ↔ g = f) :
    drift_features store vec names = [f] := by
  induction names with
  | nil => simp at hf
  | cons g rest ih =>
      obtain ⟨hg_notmem, hnd'⟩ := List.nodup_cons.mp hnd
      by_cases hgf : g = f
      · subst hgf
        rw [drift_features_cons_of_offends rest
          ((h g (List.mem_cons_self _ _)).mpr rfl)]
        have : drift_features store vec rest = [] := by
          refine drift_features_eq_nil (fun x hx hoff => ?_)
          have := (h x (List.mem_cons_of_mem _ hx)).mp hoff
          exact hg_notmem (this ▸ hx)
        rw [this]
      · have hf' : f ∈ rest := by
          rcases List.mem_cons.mp hf with hh | hh
          · exact absurd hh.symm hgf
          · exact hh
        rw [drift_features_cons_of_not_offends rest
          (fun hoff => hgf ((h g (List.mem_cons_self _ _)).mp hoff))]
        exact ih hnd' hf' (fun x hx => h x (List.mem_cons_of_mem _ hx))

theorem detect_data_drift_eq (n₀ : String) (rest : List String) (e₀ : String × FeatureStats)
    (es : StatsStore) (vec : Vec) :
    detect_data_drift (some (n₀ :: rest)) (some (e₀ :: es)) vec =
      (decide (0 < (drift_features (e₀ :: es) vec (n₀ :: rest)).length),
       drift_features (e₀ :: es) vec (n₀ :: rest),
       if 0 < (n₀ :: rest).length
       then ((drift_features (e₀ :: es) vec (n₀ :: rest)).length : ℝ) /
         ((n₀ :: rest).length : ℝ)
       else 0) := rfl

/-! ## Welford computation lemmas -/

theorem welfordStep_count (v : ℝ) (st : FeatureStats) :
    (welfordStep v st).count = st.count + 1 := rfl

theorem welfordStep_init (v : ℝ) :
    welfordStep v initFeatureStats = constStat 1 v := by
  simp only [welfordStep, initFeatureStats, constStat]
  norm_num

theorem welfordStep_const {k : ℕ} (hk : 1 ≤ k) (v σ : ℝ) :
    welfordStep v { count := k, mean := v, sum := 0, sum_sq := 0, std := σ } =
      constStat (k + 1) v := by
  have h1 : 1 < k + 1 := Nat.lt_succ_of_le hk
  have h2 : ¬ (k + 1 = 1) := by omega
  simp only [welfordStep, constStat]
  norm_num [h1, h2]

theorem welfordStep_constStat {k : ℕ} (hk : 1 ≤ k) (v : ℝ) :
    welfordStep v (constStat k v) = constStat (k + 1) v :=
  welfordStep_const hk v _

theorem welfordStep_sum_sq_nonneg (v : ℝ) (st : FeatureStats)
    (h : 0 ≤ st.sum_sq) : 0 ≤ (welfordStep v st).sum_sq := by
  simp only [welfordStep]
  have hn : (1 : ℝ) ≤ ((st.count + 1 : ℕ) : ℝ) := by
    exact_mod_cast Nat.one_le_iff_ne_zero.mpr (Nat.succ_ne_zero _)
  have hn0 : (0 : ℝ) < ((st.count + 1 : ℕ) : ℝ) := lt_of_lt_of_le one_pos hn
  have key : (v - st.mean) *
      (v - (st.mean + (v - st.mean) / ((st.count + 1 : ℕ) : ℝ))) =
      (v - st.mean) ^ 2 * (1 - 1 / ((st.count + 1 : ℕ) : ℝ)) := by ring
  have h1n : 1 / ((st.count + 1 : ℕ) : ℝ) ≤ 1 := by
    rw [div_le_one hn0]; exact hn
  have hterm : 0 ≤ (v - st.mean) ^ 2 * (1 - 1 / ((st.count + 1 : ℕ) : ℝ)) :=
    mul_nonneg (sq_nonneg _) (by linarith)
  rw [key]
  linarith

/-! ## Store invariants across update sequences -/

theorem storeKeys_initStats (names : List String) :
    storeKeys (initStats names) = names := by
  simp [storeKeys, initStats, Function.comp]
  exact List.map_id names

theorem update_feature_statistics_keys {ns : List String} {fs : Option StatsStore}
    {vec : Vec} (h : ∀ s, fs = some s → ∀ f ∈ storeKeys s, f ∈ ns) :
    ∀ s, update_feature_statistics (some ns) fs vec = some s →
      ∀ f ∈ storeKeys s, f ∈ ns := by
  intro s hs f hf
  rw [update_feature_statistics] at hs
  by_cases hempty : ns.isEmpty
  · rw [if_pos hempty] at hs
    exact h s hs f hf
  · rw [if_neg hempty] at hs
    obtain rfl : updateLoop vec ns (fs.getD (initStats ns)) = s :=
      Option.some.inj hs
    rw [updateLoop_keys] at hf
    cases hfs : fs with
    | none =>
        rw [hfs] at hf
        simp only [Option.getD_none, storeKeys_initStats] at hf
        exact hf
    | some s0 =>
        rw [hfs] at hf
        simp only [Option.getD_some] at hf
        exact h s0 hfs f hf

theorem apply_updates_keys {ns : List String} (vecs : List Vec) :
    ∀ s, apply_updates (some ns) vecs = some s → ∀ f ∈ storeKeys s, f ∈ ns := by
  rw [apply_updates]
  have main : ∀ (l : List Vec) (fs : Option StatsStore),
      (∀ s, fs = some s → ∀ f ∈ storeKeys s, f ∈ ns) →
      ∀ s, l.foldl (fun s v => update_feature_statistics (some ns) s v) fs = some s →
        ∀ f ∈ storeKeys s, f ∈ ns := by
    intro l
    induction l with
    | nil => intro fs h s hs; exact h s hs
    | cons v rest ih =>
        intro fs h s hs
        exact ih _ (update_feature_statistics_keys h) s hs
  exact main vecs none (by intro s hs; cases hs)

theorem update_feature_statistics_entries {P : FeatureStats → Prop}
    (hu : ∀ v st, P st → P (welfordStep v st)) (hinit : P initFeatureStats)
    {ns : List String} {fs : Option StatsStore} {vec : Vec}
    (h : ∀ s, fs = some s → ∀ e ∈ s, P e.2) :
    ∀ s, update_feature_statistics (some ns) fs vec = some s → ∀ e ∈ s, P e.2 := by
  intro s hs e he
  rw [update_feature_statistics] at hs
  by_cases hempty : ns.isEmpty
  · rw [if_pos hempty] at hs
    exact h s hs e he
  · rw [if_neg hempty] at hs
    obtain rfl : updateLoop vec ns (fs.getD (initStats ns)) = s :=
      Option.some.inj hs
    refine updateLoop_forall hu vec ns ?_ e he
    cases hfs : fs with
    | none =>
        simp only [Option.getD_none]
        intro e' he'
        obtain ⟨g, hg, hge⟩ := List.mem_map.mp he'
        rw [← hge]
        exact hinit
    | some s0 =>
        simp only [Option.getD_some]
        exact h s0 hfs

theorem apply_updates_entries {P : FeatureStats → Prop}
    (hu : ∀ v st, P st → P (welfordStep v st)) (hinit : P initFeatureStats)
    (fn : Option (List String)) (vecs : List Vec) :
    ∀ s, apply_updates fn vecs = some s → ∀ e ∈ s, P e.2 := by
  cases fn with
  | none =>
      have : apply_updates none vecs = none := by
        rw [apply_updates]
        induction vecs with
        | nil => rfl
        | cons v rest ih => exact ih
      intro s hs
      rw [this] at hs
      cases hs
  | some ns =>
      rw [apply_updates]
      have main : ∀ (l : List Vec) (fs : Option StatsStore),
          (∀ s, fs = some s → ∀ e ∈ s, P e.2) →
          ∀ s, l.foldl (fun s v => update_feature_statistics (some ns) s v) fs = some s →
            ∀ e ∈ s, P e.2 := by
        intro l
        induction l with
        | nil => intro fs h s hs; exact h s hs
        | cons v rest ih =>
            intro fs h s hs
            exact ih _ (update_feature_statistics_entries hu hinit h) s hs
      exact main vecs none (by intro s hs; cases hs)

/-! ## Claim theorems -/

/-- C9: for every input feature vector, `detect_data_drift` applied to an
empty statistics store (`feature_statistics` is `None` or the empty dict)
returns the cold-start verdict `(flagged := false, offending := [],
ratio := 0.0)`, regardless of the feature values supplied and of the
expected feature list. -/
theorem C9_cold_start (feature_names : Option (List String))
    (fs : Option StatsStore) (vec : Vec) (h : fs = none ∨ fs = some []) :
    detect_data_drift feature_names fs vec = (false, [], 0) := by
  rcases h with h | h <;> subst h <;>
    (cases feature_names with
     | none => rfl
     | some names => cases names <;> rfl)

/-- Witness for C9 at a concrete input: the empty store with a loaded
feature list and an arbitrary in-range value. -/
theorem C9_cold_start_witness :
    detect_data_drift (some ["temp"]) none [("temp", 1000)] = (false, [], 0) :=
  C9_cold_start (some ["temp"]) none [("temp", 1000)] (Or.inl rfl)

/-- C10: when `feature_names` is `None` (advisory mode), drift monitoring is
inert: `update_feature_statistics` never creates or modifies the store,
`detect_data_drift` returns the no-drift verdict for every input, and
`predict` performs no feature-name validation — a request is answered with
the model's prediction (or 503 when no model is loaded), never with a 400
for missing features, and the server state is completely unchanged. -/
theorem C10_advisory_mode (st : ServerState) (vec : Vec)
    (h : st.feature_names = none) :
    update_feature_statistics st.feature_names st.feature_statistics vec
        = st.feature_statistics ∧
    detect_data_drift st.feature_names st.feature_statistics vec
        = (false, [], 0) ∧
    predict st vec =
      ((if st.model_loaded then PredictOutcome.ok false [] 0
        else PredictOutcome.modelNotLoaded), st) := by
  obtain ⟨ml, fn, fs, dc⟩ := st
  simp only at h
  subst h
  refine ⟨rfl, rfl, ?_⟩
  cases ml with
  | false => rfl
  | true =>
      show (PredictOutcome.ok false [] 0,
        ({ model_loaded := true, feature_names := none, feature_statistics := fs,
           drift_counters := fun g => dc g + List.count g [] } : ServerState)) = _
      simp

/-- Witness for C10 at a concrete input: a loaded model whose feature list
could not be recovered, receiving an arbitrary feature map. -/
theorem C10_advisory_mode_witness :
    update_feature_statistics (ServerState.feature_names
        ⟨true, none, none, fun _ => 0⟩)
      (ServerState.feature_statistics ⟨true, none, none, fun _ => 0⟩)
      [("x", 5)] =
      ServerState.feature_statistics ⟨true, none, none, fun _ => 0⟩ ∧
    detect_data_drift (ServerState.feature_names ⟨true, none, none, fun _ => 0⟩)
      (ServerState.feature_statistics ⟨true, none, none, fun _ => 0⟩)
      [("x", 5)] = (false, [], 0) ∧
    predict ⟨true, none, none, fun _ => 0⟩ [("x", 5)] =
      ((if ServerState.model_loaded ⟨true, none, none, fun _ => 0⟩
         then PredictOutcome.ok false [] 0
         else PredictOutcome.modelNotLoaded),
       ⟨true, none, none, fun _ => 0⟩) :=
  C10_advisory_mode ⟨true, none, none, fun _ => 0⟩ [("x", 5)] rfl

/-- C8: `detect_data_drift` is read-only and idempotent with respect to the
statistics store: its state step leaves `feature_statistics` (and
`feature_names`) untouched, and running it twice in succession returns an
identical verdict (same flagged bit, same offending list, same ratio), even
though the drift counters advance between the runs. -/
theorem C8_classify_idempotent (st : ServerState) (vec : Vec) :
    (classifyStep st vec).2.feature_statistics = st.feature_statistics ∧
    (classifyStep st vec).2.feature_names = st.feature_names ∧
    (classifyStep ((classifyStep st vec).2) vec).1 = (classifyStep st vec).1 :=
  ⟨rfl, rfl, rfl⟩

/-- C3: a request lacking at least one expected feature is rejected by the
`/predict` handler with the 400 `Missing features` error, whose list names
exactly the expected features absent from the request, and the server state
— in particular the statistics store — is returned unchanged: the rejection
happens before `update_feature_statistics` and `detect_data_drift` run. -/
theorem C3_missing_features (st : ServerState) (vec : Vec)
    (names : List String) (f : String) (hm : st.model_loaded = true)
    (hn : st.feature_names = some names) (hf : f ∈ names)
    (habs : dictLookup vec f = none) :
    predict st vec =
      (PredictOutcome.missingFeatures
        (names.filter (fun g => (dictLookup vec g).isNone)), st) ∧
    f ∈ names.filter (fun g => (dictLookup vec g).isNone) ∧
    (∀ g, g ∈ names.filter (fun g => (dictLookup vec g).isNone) ↔
      g ∈ names ∧ dictLookup vec g = none) := by
  have hmem : f ∈ names.filter (fun g => (dictLookup vec g).isNone) :=
    List.mem_filter.mpr ⟨hf, by simp [habs]⟩
  have hne : (names.filter (fun g => (dictLookup vec g).isNone)).isEmpty = false := by
    cases hl : names.filter (fun g => (dictLookup vec g).isNone) with
    | nil => exact absurd (hl ▸ hmem) (List.not_mem_nil f)
    | cons a l => rfl
  refine ⟨?_, hmem, ?_⟩
  · simp [predict, hm, missing_features, hn, hne]
  · intro g
    simp [List.mem_filter, Option.isNone_iff_eq_none]

/-- Witness for C3 at the spec's own example: a model expecting
`temp, humidity` receives `{"temp": 20}` and is rejected naming
`humidity`, with the state unchanged. -/
theorem C3_missing_features_witness :
    predict ⟨true, some ["temp", "humidity"], none, fun _ => 0⟩
        [("temp", (20 : ℝ))] =
      (PredictOutcome.missingFeatures
        (["temp", "humidity"].filter
          (fun g => (dictLookup [("temp", (20 : ℝ))] g).isNone)),
       ⟨true, some ["temp", "humidity"], none, fun _ => 0⟩) ∧
    "humidity" ∈ ["temp", "humidity"].filter
        (fun g => (dictLookup [("temp", (20 : ℝ))] g).isNone) ∧
    (∀ g, g ∈ ["temp", "humidity"].filter
        (fun g => (dictLookup [("temp", (20 : ℝ))] g).isNone) ↔
      g ∈ ["temp", "humidity"] ∧ dictLookup [("temp", (20 : ℝ))] g = none) :=
  C3_missing_features ⟨true, some ["temp", "humidity"], none, fun _ => 0⟩
    [("temp", (20 : ℝ))] ["temp", "humidity"] "humidity" rfl rfl
    (by simp) rfl

/-- C7: across any sequence of `update_feature_statistics` calls starting
from the fresh (`None`) store, the store's key set stays a subset of the
expected feature set: a key of a supplied feature map that is not an
expected feature never appears as a key of the statistics store. -/
theorem C7_keys_subset (ns : List String) (vecs : List Vec) (store : StatsStore)
    (h : apply_updates (some ns) vecs = some store) :
    ∀ f ∈ storeKeys store, f ∈ ns :=
  apply_updates_keys vecs store h

/-- Witness for C7 at a concrete input: one update carrying the extra key
`"b"` beside the expected `"a"`. -/
theorem C7_keys_subset_witness : "a" ∈ ["a"] :=
  C7_keys_subset ["a"] [[("a", (1 : ℝ)), ("b", 2)]]
    (updateLoop [("a", (1 : ℝ)), ("b", 2)] ["a"] (initStats ["a"])) rfl
    "a" (List.Mem.head _)

/-- C6: across any sequence of `update_feature_statistics` calls starting
from the fresh store, every feature's stored `sum_sq` stays non-negative —
a consequence of the Welford step (the increment `delta * delta2` equals
`delta^2 * (1 - 1/n) ≥ 0`), with no clamping anywhere in the code. -/
theorem C6_sum_sq_nonneg (fn : Option (List String)) (vecs : List Vec)
    (store : StatsStore) (f : String) (st : FeatureStats)
    (h1 : apply_updates fn vecs = some store)
    (h2 : dictLookup store f = some st) : 0 ≤ st.sum_sq :=
  apply_updates_entries (P := fun s => 0 ≤ s.sum_sq)
    welfordStep_sum_sq_nonneg le_rfl fn vecs store h1 (f, st) (dictLookup_mem h2)

/-- Witness for C6 at a concrete input: one update of feature `"a"`. -/
theorem C6_sum_sq_nonneg_witness :
    0 ≤ (welfordStep 2 initFeatureStats).sum_sq :=
  C6_sum_sq_nonneg (some ["a"]) [[("a", 2)]]
    [("a", welfordStep 2 initFeatureStats)] "a" (welfordStep 2 initFeatureStats)
    rfl rfl

/-- The second Welford update of a feature first updated with `v1`, now
receiving `v2`: `count = 2`, `mean = (v1+v2)/2`,
`sum_sq = (v2-v1)^2/2`, `std = sqrt(sum_sq / 1)`. -/
theorem welfordStep_two (v1 v2 : ℝ) :
    welfordStep v2 (constStat 1 v1) =
      { count := 2, mean := (v1 + v2) / 2, sum := 0, sum_sq := (v2 - v1) ^ 2 / 2,
        std := Real.sqrt ((v2 - v1) ^ 2 / 2) } := by
  simp only [welfordStep, constStat]
  rw [FeatureStats.mk.injEq]
  refine ⟨by norm_num, ?_, rfl, ?_, ?_⟩
  · push_cast
    ring
  · push_cast
    ring
  · rw [if_pos (by norm_num : 1 < 1 + 1)]
    congr 1
    push_cast
    ring

/-- C5: starting from a fresh store, after two `update_feature_statistics`
calls supplying `v1` then `v2` for an expected feature, that feature's
stored `mean` is `(v1+v2)/2` and its stored `std` is `|v1-v2|/sqrt 2`, the
sample standard deviation of the two points; equivalently `std^2` is
`(v1-v2)^2/2`. -/
theorem C5_two_updates (ns : List String) (f : String) (v1 v2 : ℝ)
    (hnd : ns.Nodup) (hf : f ∈ ns) :
    ∃ store st,
      update_feature_statistics (some ns)
          (update_feature_statistics (some ns) none [(f, v1)]) [(f, v2)]
        = some store ∧
      dictLookup store f = some st ∧
      st.count = 2 ∧ st.mean = (v1 + v2) / 2 ∧
      st.std = |v1 - v2| / Real.sqrt 2 ∧ st.std ^ 2 = (v1 - v2) ^ 2 / 2 := by
  have hne : ns.isEmpty = false := by
    cases ns with
    | nil => simp at hf
    | cons a l => rfl
  have hv1 : dictLookup [(f, v1)] f = some v1 := by simp [dictLookup]
  have hv2 : dictLookup [(f, v2)] f = some v2 := by simp [dictLookup]
  have h1 : update_feature_statistics (some ns) none [(f, v1)] =
      some (updateLoop [(f, v1)] ns (initStats ns)) := by
    simp [update_feature_statistics, hne]
  have h2 : update_feature_statistics (some ns)
      (some (updateLoop [(f, v1)] ns (initStats ns))) [(f, v2)] =
      some (updateLoop [(f, v2)] ns (updateLoop [(f, v1)] ns (initStats ns))) := by
    simp [update_feature_statistics, hne]
  have hl1 : dictLookup (updateLoop [(f, v1)] ns (initStats ns)) f =
      some (constStat 1 v1) := by
    rw [updateLoop_lookup_mem hnd hf hv1, initStats_lookup, if_pos hf,
      Option.map_some', welfordStep_init]
  have hl2 : dictLookup (updateLoop [(f, v2)] ns
      (updateLoop [(f, v1)] ns (initStats ns))) f =
      some (welfordStep v2 (constStat 1 v1)) := by
    rw [updateLoop_lookup_mem hnd hf hv2, hl1, Option.map_some']
  refine ⟨updateLoop [(f, v2)] ns (updateLoop [(f, v1)] ns (initStats ns)),
    welfordStep v2 (constStat 1 v1), by rw [h1, h2], hl2, ?_, ?_, ?_, ?_⟩
  · rw [welfordStep_two]
  · rw [welfordStep_two]
  · rw [welfordStep_two]
    show Real.sqrt ((v2 - v1) ^ 2 / 2) = |v1 - v2| / Real.sqrt 2
    rw [Real.sqrt_div (sq_nonneg _) 2, Real.sqrt_sq_eq_abs, abs_sub_comm]
  · rw [welfordStep_two]
    show (Real.sqrt ((v2 - v1) ^ 2 / 2)) ^ 2 = (v1 - v2) ^ 2 / 2
    rw [Real.sq_sqrt (by positivity)]
    ring

/-- Witness for C5 at a concrete input: feature `"a"` updated with `0`
then `2`. -/
theorem C5_two_updates_witness :
    ∃ store st,
      update_feature_statistics (some ["a"])
          (update_feature_statistics (some ["a"]) none [("a", (0 : ℝ))])
          [("a", (2 : ℝ))]
        = some store ∧
      dictLookup store "a" = some st ∧
      st.count = 2 ∧ st.mean = ((0 : ℝ) + 2) / 2 ∧
      st.std = |(0 : ℝ) - 2| / Real.sqrt 2 ∧
      st.std ^ 2 = ((0 : ℝ) - 2) ^ 2 / 2 :=
  C5_two_updates ["a"] "a" 0 2 (by simp) (by simp)

/-- C2 counterexample: the claim's `count ≥ 1` condition is not what the
code checks — `detect_data_drift` only tests presence in the store and
`std > 0`. The store `[("a", count 1), ("b", count 0)]` is reachable by one
`update_feature_statistics` call whose map lacks `"b"` (lazy creation zeroes
every expected feature, and `count-0` entries carry the default
`std = 1.0`), and against it the vector `{"a": 0, "b": 10}` flags `"b"`
even though `"b"`'s running count is 0, refuting the claim. -/
theorem C2_counterexample :
    update_feature_statistics (some ["a", "b"]) none [("a", (0 : ℝ))] =
      some [("a", constStat 1 0), ("b", initFeatureStats)] ∧
    ¬ ClaimC2 := by
  constructor
  · rw [show update_feature_statistics (some ["a", "b"]) none [("a", (0 : ℝ))] =
      some [("a", welfordStep 0 initFeatureStats), ("b", initFeatureStats)] from rfl,
      welfordStep_init]
  · intro h
    have h2 := h ["a", "b"] [("a", constStat 1 0), ("b", initFeatureStats)]
      [("a", (0 : ℝ)), ("b", 10)] "b" (by simp)
    have hmem : "b" ∈ (detect_data_drift (some ["a", "b"])
        (some [("a", constStat 1 0), ("b", initFeatureStats)])
        [("a", (0 : ℝ)), ("b", 10)]).2.1 := by
      rw [detect_data_drift_eq]
      refine mem_drift_features.mpr ⟨by simp, 10, initFeatureStats, rfl, rfl, ?_, ?_⟩
      · norm_num [initFeatureStats]
      · norm_num [initFeatureStats]
    obtain ⟨-, value, stats, hv, hs, hcount, -, -⟩ := h2.mp hmem
    rw [show dictLookup [("a", constStat 1 0), ("b", initFeatureStats)] "b" =
      some initFeatureStats from rfl] at hs
    obtain rfl : initFeatureStats = stats := Option.some.inj hs
    simp [initFeatureStats] at hcount

/-- C2 amended: a feature enters `offending_features` exactly when it is
present in both the vector and the expected feature set, it has an entry in
the statistics store, that entry's stored `std` is positive, and
`|value - mean| > 3 * std`. The running `count` is never consulted: an
entry still at `count = 0` (store keys are created zeroed, with default
`std = 1.0`) can be flagged. -/
theorem C2_amended_offending (names : List String) (store : StatsStore)
    (vec : Vec) (f : String) :
    f ∈ (detect_data_drift (some names) (some store) vec).2.1 ↔
      (f ∈ names ∧ ∃ value stats, dictLookup vec f = some value ∧
        dictLookup store f = some stats ∧ 0 < stats.std ∧
        3 * stats.std < |value - stats.mean|) := by
  cases names with
  | nil =>
      cases store with
      | nil => simp [detect_data_drift]
      | cons e es => simp [detect_data_drift]
  | cons n rest =>
      cases store with
      | nil =>
          show f ∈ ([] : List String) ↔ _
          simp [dictLookup]
      | cons e es =>
          rw [detect_data_drift_eq]
          exact mem_drift_features

/-- Successful-path characterization of the `/predict` handler: with a model
loaded and no missing features, the handler first folds the request into the
statistics (`update_feature_statistics`, line 275), then classifies the
request against the UPDATED store (`detect_data_drift`, line 278), bumps the
per-feature drift counters, and reports that verdict. -/
theorem predict_success (st : ServerState) (vec : Vec)
    (hm : st.model_loaded = true)
    (hmiss : missing_features st.feature_names vec = []) :
    predict st vec =
      (PredictOutcome.ok
        (detect_data_drift st.feature_names
          (update_feature_statistics st.feature_names st.feature_statistics vec)
          vec).1
        (detect_data_drift st.feature_names
          (update_feature_statistics st.feature_names st.feature_statistics vec)
          vec).2.1
        (detect_data_drift st.feature_names
          (update_feature_statistics st.feature_names st.feature_statistics vec)
          vec).2.2,
       { st with
         feature_statistics :=
           update_feature_statistics st.feature_names st.feature_statistics vec,
         drift_counters := fun g => st.drift_counters g +
           (detect_data_drift st.feature_names
             (update_feature_statistics st.feature_names st.feature_statistics vec)
             vec).2.1.count g }) := by
  simp [predict, hm, hmiss]

/-- C1 counterexample: classification does NOT run against the pre-request
statistics. State `s1` (reachable: it is exactly the state a fresh server
has after one `/predict` carrying `temp = 0`) holds
`count = 1, mean = 0, std = 1` for `temp`. A request with `temp = 100`
would be flagged against those pre-existing statistics
(`|100 - 0| > 3 * 1`), but the handler updates first, so it classifies
`100` against `mean = 50, std = sqrt 5000` and reports no drift. -/
theorem C1_counterexample :
    (predict ⟨true, some ["temp"], none, fun _ => 0⟩
        [("temp", (0 : ℝ))]).2.feature_statistics = some [("temp", constStat 1 0)] ∧
    ¬ ClaimC1 := by
  constructor
  · rw [predict_success ⟨true, some ["temp"], none, fun _ => 0⟩
      [("temp", (0 : ℝ))] rfl rfl]
    rw [show update_feature_statistics (some ["temp"]) none [("temp", (0 : ℝ))] =
      some [("temp", welfordStep 0 initFeatureStats)] from rfl, welfordStep_init]
  · intro hclaim
    have hstep : welfordStep 100 (constStat 1 0) = statTemp2 := by
      simp only [welfordStep, constStat, statTemp2]
      rw [FeatureStats.mk.injEq]
      refine ⟨by norm_num, by push_cast; norm_num, rfl, by push_cast; norm_num, ?_⟩
      rw [if_pos (by norm_num : 1 < 1 + 1)]
      congr 1
      push_cast
      norm_num
    have hsqrt : (50 : ℝ) ≤ 3 * Real.sqrt 5000 := by
      have h1 : (50 : ℝ) ≤ Real.sqrt 5000 :=
        (Real.le_sqrt (by norm_num) (by norm_num)).mpr (by norm_num)
      have h2 : (0 : ℝ) ≤ Real.sqrt 5000 := Real.sqrt_nonneg _
      linarith
    have hupd : update_feature_statistics (some ["temp"])
        (some [("temp", constStat 1 0)]) [("temp", (100 : ℝ))] =
        some [("temp", statTemp2)] := by
      rw [show update_feature_statistics (some ["temp"])
        (some [("temp", constStat 1 0)]) [("temp", (100 : ℝ))] =
        some [("temp", welfordStep 100 (constStat 1 0))] from rfl, hstep]
    have hdf : drift_features [("temp", statTemp2)]
        [("temp", (100 : ℝ))] ["temp"] = [] := by
      refine drift_features_eq_nil (fun g hg hoff => ?_)
      obtain ⟨value, stats, hv, hs, hstd, hgt⟩ := hoff
      have hgtemp : g = "temp" := by
        rcases List.mem_cons.mp hg with hh | hh
        · exact hh
        · simp at hh
      subst hgtemp
      obtain rfl : (100 : ℝ) = value := Option.some.inj hv
      obtain rfl : statTemp2 = stats := Option.some.inj hs
      simp only [statTemp2] at hgt
      rw [show |(100 : ℝ) - 50| = 50 by norm_num] at hgt
      linarith
    have hdet : detect_data_drift (some ["temp"])
        (some [("temp", statTemp2)]) [("temp", (100 : ℝ))] =
        (false, [], 0) := by
      rw [detect_data_drift_eq, hdf]
      norm_num
    have hpred : (predict ⟨true, some ["temp"], some [("temp", constStat 1 0)],
        fun _ => 0⟩ [("temp", (100 : ℝ))]).1 = PredictOutcome.ok false [] 0 := by
      rw [predict_success ⟨true, some ["temp"], some [("temp", constStat 1 0)],
        fun _ => 0⟩ [("temp", (100 : ℝ))] rfl rfl]
      simp only
      rw [hupd, hdet]
    have hpre : detect_data_drift (some ["temp"]) (some [("temp", constStat 1 0)])
        [("temp", (100 : ℝ))] = (true, ["temp"], 1) := by
      rw [detect_data_drift_eq]
      have hoff : Offends [("temp", constStat 1 0)] [("temp", (100 : ℝ))] "temp" := by
        refine ⟨100, constStat 1 0, rfl, rfl, ?_, ?_⟩
        · norm_num [constStat]
        · norm_num [constStat]
      rw [drift_features_cons_of_offends [] hoff,
        show drift_features [("temp", constStat 1 0)] [("temp", (100 : ℝ))] [] = []
          from rfl]
      norm_num
    have := hclaim ⟨true, some ["temp"], some [("temp", constStat 1 0)], fun _ => 0⟩
      [("temp", (100 : ℝ))] false [] 0 hpred
    rw [hpre] at this
    exact absurd (congrArg Prod.fst this) (by simp)

/-- C1 amended: for every request the `/predict` handler answers with a
drift verdict, that verdict is `detect_data_drift` evaluated against the
statistics store AFTER the request's values have been folded in — the
handler runs `update_feature_statistics` first (line 275) and
`detect_data_drift` second (line 278), so classification sees a store that
already includes the request. -/
theorem C1_amended_update_then_classify (st : ServerState) (vec : Vec)
    (hm : st.model_loaded = true)
    (hmiss : missing_features st.feature_names vec = []) :
    predict st vec =
      (PredictOutcome.ok
        (detect_data_drift st.feature_names
          (update_feature_statistics st.feature_names st.feature_statistics vec)
          vec).1
        (detect_data_drift st.feature_names
          (update_feature_statistics st.feature_names st.feature_statistics vec)
          vec).2.1
        (detect_data_drift st.feature_names
          (update_feature_statistics st.feature_names st.feature_statistics vec)
          vec).2.2,
       { st with
         feature_statistics :=
           update_feature_statistics st.feature_names st.feature_statistics vec,
         drift_counters := fun g => st.drift_counters g +
           (detect_data_drift st.feature_names
             (update_feature_statistics st.feature_names st.feature_statistics vec)
             vec).2.1.count g }) :=
  predict_success st vec hm hmiss

/-- Witness for the amended C1 at a concrete input: a fresh server with one
expected feature `a` handling a complete request. -/
theorem C1_amended_update_then_classify_witness :
    predict ⟨true, some ["a"], none, fun _ => 0⟩ [("a", (0 : ℝ))] =
      (PredictOutcome.ok
        (detect_data_drift (some ["a"])
          (update_feature_statistics (some ["a"]) none [("a", (0 : ℝ))])
          [("a", (0 : ℝ))]).1
        (detect_data_drift (some ["a"])
          (update_feature_statistics (some ["a"]) none [("a", (0 : ℝ))])
          [("a", (0 : ℝ))]).2.1
        (detect_data_drift (some ["a"])
          (update_feature_statistics (some ["a"]) none [("a", (0 : ℝ))])
          [("a", (0 : ℝ))]).2.2,
       ⟨true, some ["a"],
        update_feature_statistics (some ["a"]) none [("a", (0 : ℝ))],
        fun g => (0 : ℕ) +
          (detect_data_drift (some ["a"])
            (update_feature_statistics (some ["a"]) none [("a", (0 : ℝ))])
            [("a", (0 : ℝ))]).2.1.count g⟩) :=
  C1_amended_update_then_classify ⟨true, some ["a"], none, fun _ => 0⟩
    [("a", (0 : ℝ))] rfl rfl

/-! ## Lemmas for the warm-up scenario (claim C4) -/

theorem updateLoop_map_of_eq {names : List String} (hnd : names.Nodup) (vec : Vec)
    (s : String → FeatureStats) (m : String → ℝ)
    (hvec : ∀ g ∈ names, dictLookup vec g = some (m g)) {store : StatsStore}
    (hstore : store = names.map (fun g => (g, s g))) :
    updateLoop vec names store = names.map (fun g => (g, welfordStep (m g) (s g))) := by
  rw [hstore]
  exact updateLoop_map hnd vec s m hvec

theorem detect_data_drift_nonempty {names : List String} {store : StatsStore}
    (vec : Vec) (hn : names ≠ []) (hs : store ≠ []) :
    detect_data_drift (some names) (some store) vec =
      (decide (0 < (drift_features store vec names).length),
       drift_features store vec names,
       if 0 < names.length
       then ((drift_features store vec names).length : ℝ) / (names.length : ℝ)
       else 0) := by
  cases names with
  | nil => exact absurd rfl hn
  | cons n rest =>
      cases store with
      | nil => exact absurd rfl hs
      | cons e es => rfl

/-- The 51st Welford update of a feature whose first 50 updates all carried
the value `v`, now receiving `w`. -/
theorem welfordStep_divergent (v w : ℝ) :
    welfordStep w (constStat 50 v) =
      { count := 51, mean := v + (w - v) / 51, sum := 0,
        sum_sq := (w - v) ^ 2 * 50 / 51, std := Real.sqrt ((w - v) ^ 2 / 51) } := by
  simp only [welfordStep, constStat]
  rw [FeatureStats.mk.injEq]
  refine ⟨by norm_num, by push_cast; norm_num, rfl, by push_cast; ring, ?_⟩
  rw [if_pos (by norm_num : 1 < 50 + 1)]
  congr 1
  push_cast
  ring

/-- After 50 identical values `v`, a 51st value `w ≠ v` always trips the
`3 * std` test of `detect_data_drift`: the post-update standard deviation is
`|w-v| / sqrt 51` while the distance from the post-update mean is
`|w-v| * 50/51`. -/
theorem offends_divergent (v w : ℝ) (hw : w ≠ v) :
    0 < (welfordStep w (constStat 50 v)).std ∧
    3 * (welfordStep w (constStat 50 v)).std <
      |w - (welfordStep w (constStat 50 v)).mean| := by
  rw [welfordStep_divergent]
  have hd : w - v ≠ 0 := sub_ne_zero.mpr hw
  have hda : 0 < |w - v| := abs_pos.mpr hd
  constructor
  · simp only
    rw [Real.sqrt_pos]
    positivity
  · simp only
    have hsq : Real.sqrt ((w - v) ^ 2 / 51) = |w - v| / Real.sqrt 51 := by
      rw [Real.sqrt_div (sq_nonneg _) 51, Real.sqrt_sq_eq_abs]
    have habs : |w - (v + (w - v) / 51)| = |w - v| * (50 / 51) := by
      rw [show w - (v + (w - v) / 51) = (w - v) * (50 / 51) by ring, abs_mul,
        abs_of_pos (by norm_num : (0 : ℝ) < 50 / 51)]
    rw [hsq, habs]
    have hs2 : Real.sqrt 51 ^ 2 = 51 := Real.sq_sqrt (by norm_num)
    have hs0 : 0 < Real.sqrt 51 := Real.sqrt_pos.mpr (by norm_num)
    have h153 : (153 : ℝ) < 50 * Real.sqrt 51 := by nlinarith [hs2, hs0]
    rw [show (3 : ℝ) * (|w - v| / Real.sqrt 51) = (3 * |w - v|) / Real.sqrt 51
      by ring, div_lt_iff₀ hs0]
    nlinarith [mul_lt_mul_of_pos_right h153 hda, hs0, hda]

/-- C4: on a loaded model with expected features `ns`, after 50 `/predict`
requests carrying the same complete feature map `g ↦ m g`, a 51st request
identical except that feature `f₀` now carries a value `w` differing from
its accumulated mean `m f₀` (the accumulated `std` is 0, so any `w ≠ m f₀`
lies more than 3 accumulated standard deviations out) is answered with
`flagged = true`, offending list exactly `[f₀]`, and drift ratio exactly
`1 / ns.length`; the drift counter of `f₀` grows by exactly 1 and every
other feature's counter is unchanged. -/
theorem C4_divergence_after_warmup (ns : List String) (m : String → ℝ)
    (f₀ : String) (w : ℝ) (c0 : String → ℕ) (hnd : ns.Nodup) (hf : f₀ ∈ ns)
    (hw : w ≠ m f₀) :
    let vecBase : Vec := ns.map (fun g => (g, m g))
    let vec51 : Vec := ns.map (fun g => (g, if g = f₀ then w else m g))
    let warm : ServerState :=
      (fun st => (predict st vecBase).2)^[50] ⟨true, some ns, none, c0⟩
    (predict warm vec51).1 =
      PredictOutcome.ok true [f₀] (1 / (ns.length : ℝ)) ∧
    (predict warm vec51).2.drift_counters f₀ = warm.drift_counters f₀ + 1 ∧
    ∀ g, g ≠ f₀ →
      (predict warm vec51).2.drift_counters g = warm.drift_counters g := by
  intro vecBase vec51 warm
  have hne : ns ≠ [] := List.ne_nil_of_mem hf
  have hneE : ns.isEmpty = false := by
    cases ns with
    | nil => exact absurd rfl hne
    | cons a l => rfl
  have hvecBase : ∀ g ∈ ns, dictLookup vecBase g = some (m g) := by
    intro g hg
    show dictLookup (ns.map (fun g => (g, m g))) g = _
    rw [dictLookup_map, if_pos hg]
  have hvec51 : ∀ g ∈ ns, dictLookup vec51 g =
      some (if g = f₀ then w else m g) := by
    intro g hg
    show dictLookup (ns.map (fun g => (g, if g = f₀ then w else m g))) g = _
    rw [dictLookup_map, if_pos hg]
  have hmissBase : missing_features (some ns) vecBase = [] := by
    simp only [missing_features]
    rw [List.filter_eq_nil_iff]
    intro g hg
    simp [hvecBase g hg]
  have hmiss51 : missing_features (some ns) vec51 = [] := by
    simp only [missing_features]
    rw [List.filter_eq_nil_iff]
    intro g hg
    simp [hvec51 g hg]
  have hconst : ∀ k : ℕ, 1 ≤ k → ∃ c : String → ℕ,
      (fun st => (predict st vecBase).2)^[k] ⟨true, some ns, none, c0⟩ =
        ⟨true, some ns, some (ns.map (fun g => (g, constStat k (m g)))), c⟩ := by
    intro k hk
    induction k with
    | zero => omega
    | succ k ih =>
        by_cases hk0 : k = 0
        · subst hk0
          rw [Function.iterate_one]
          have hupd0 : update_feature_statistics (some ns) none vecBase =
              some (ns.map (fun g => (g, constStat 1 (m g)))) := by
            simp only [update_feature_statistics, hneE, Bool.false_eq_true,
              if_false, Option.getD_none]
            rw [updateLoop_map_of_eq hnd vecBase (fun _ => initFeatureStats) m
              hvecBase (show initStats ns =
                ns.map (fun g => (g, (fun _ : String => initFeatureStats) g))
                from rfl)]
            exact congrArg some (List.map_congr_left
              (fun g _ => by rw [welfordStep_init]))
          refine ⟨fun g => c0 g +
            (detect_data_drift (some ns)
              (some (ns.map (fun g => (g, constStat 1 (m g))))) vecBase).2.1.count g,
            ?_⟩
          rw [predict_success ⟨true, some ns, none, c0⟩ vecBase rfl hmissBase]
          simp only [hupd0]
        · have hk1 : 1 ≤ k := Nat.one_le_iff_ne_zero.mpr hk0
          obtain ⟨c, hc⟩ := ih hk1
          rw [Function.iterate_succ_apply', hc]
          have hupdk : update_feature_statistics (some ns)
              (some (ns.map (fun g => (g, constStat k (m g))))) vecBase =
              some (ns.map (fun g => (g, constStat (k + 1) (m g)))) := by
            simp only [update_feature_statistics, hneE, Bool.false_eq_true,
              if_false, Option.getD_some]
            rw [updateLoop_map_of_eq hnd vecBase (fun g => constStat k (m g)) m
              hvecBase rfl]
            exact congrArg some (List.map_congr_left
              (fun g _ => by rw [welfordStep_constStat hk1]))
          refine ⟨fun g => c g +
            (detect_data_drift (some ns)
              (some (ns.map (fun g => (g, constStat (k + 1) (m g)))))
              vecBase).2.1.count g, ?_⟩
          rw [predict_success ⟨true, some ns,
            some (ns.map (fun g => (g, constStat k (m g)))), c⟩ vecBase rfl
            hmissBase]
          simp only [hupdk]
  obtain ⟨c50, hc50⟩ := hconst 50 (by norm_num)
  have hwarm : warm =
      ⟨true, some ns, some (ns.map (fun g => (g, constStat 50 (m g)))), c50⟩ := hc50
  have hupd51 : update_feature_statistics (some ns)
      (some (ns.map (fun g => (g, constStat 50 (m g))))) vec51 =
      some (ns.map (fun g =>
        (g, welfordStep (if g = f₀ then w else m g) (constStat 50 (m g))))) := by
    simp only [update_feature_statistics, hneE, Bool.false_eq_true, if_false,
      Option.getD_some]
    rw [updateLoop_map_of_eq hnd vec51 (fun g => constStat 50 (m g))
      (fun g => if g = f₀ then w else m g) hvec51 rfl]
  have hlook51 : ∀ g ∈ ns, dictLookup (ns.map (fun g =>
      (g, welfordStep (if g = f₀ then w else m g) (constStat 50 (m g))))) g =
      some (welfordStep (if g = f₀ then w else m g) (constStat 50 (m g))) := by
    intro g hg
    rw [dictLookup_map, if_pos hg]
  have hoffiff : ∀ g ∈ ns,
      (Offends (ns.map (fun g =>
        (g, welfordStep (if g = f₀ then w else m g) (constStat 50 (m g)))))
        vec51 g ↔ g = f₀) := by
    intro g hg
    constructor
    · intro hoff
      by_contra hgf
      obtain ⟨value, stats, hv, hs, hstd, hgt⟩ := hoff
      have hstats : stats =
          welfordStep (if g = f₀ then w else m g) (constStat 50 (m g)) :=
        (Option.some.inj ((hlook51 g hg).symm.trans hs)).symm
      rw [if_neg hgf] at hstats
      rw [welfordStep_constStat (by norm_num : 1 ≤ 50)] at hstats
      rw [hstats] at hstd
      norm_num [constStat] at hstd
    · intro hgf
      subst hgf
      refine ⟨w, welfordStep w (constStat 50 (m g)), ?_, ?_, ?_, ?_⟩
      · rw [hvec51 g hg, if_pos rfl]
      · rw [hlook51 g hg, if_pos rfl]
      · exact (offends_divergent (m g) w hw).1
      · exact (offends_divergent (m g) w hw).2
  have hdf51 : drift_features (ns.map (fun g =>
      (g, welfordStep (if g = f₀ then w else m g) (constStat 50 (m g)))))
      vec51 ns = [f₀] :=
    drift_features_eq_singleton hnd hf hoffiff
  have hmapne : ns.map (fun g =>
      (g, welfordStep (if g = f₀ then w else m g) (constStat 50 (m g)))) ≠ [] := by
    simp [hne]
  have hdet51 : detect_data_drift (some ns)
      (some (ns.map (fun g =>
        (g, welfordStep (if g = f₀ then w else m g) (constStat 50 (m g))))))
      vec51 = (true, [f₀], 1 / (ns.length : ℝ)) := by
    rw [detect_data_drift_nonempty vec51 hne hmapne, hdf51,
      if_pos (List.length_pos.mpr hne)]
    norm_num
  have hfull := predict_success
    ⟨true, some ns, some (ns.map (fun g => (g, constStat 50 (m g)))), c50⟩
    vec51 rfl hmiss51
  simp only [hupd51, hdet51] at hfull
  rw [hwarm, hfull]
  refine ⟨rfl, ?_, ?_⟩
  · show c50 f₀ + List.count f₀ [f₀] = c50 f₀ + 1
    simp
  · intro g hgf
    show c50 g + List.count g [f₀] = c50 g
    simp [List.count_singleton, beq_iff_eq, Ne.symm hgf]

set_option maxRecDepth 8000 in
/-- Witness for C4 at a concrete input: two features `a, b` warmed up with
the value 0 fifty times, then `a` receives 1. -/
theorem C4_divergence_after_warmup_witness :
    let vecBase : Vec := ["a", "b"].map (fun g => (g, (0 : ℝ)))
    let vec51 : Vec := ["a", "b"].map (fun g => (g, if g = "a" then (1 : ℝ) else 0))
    let warm : ServerState :=
      (fun st => (predict st vecBase).2)^[50] ⟨true, some ["a", "b"], none, fun _ => 0⟩
    (predict warm vec51).1 =
      PredictOutcome.ok true ["a"] (1 / ((["a", "b"] : List String).length : ℝ)) ∧
    (predict warm vec51).2.drift_counters "a" = warm.drift_counters "a" + 1 ∧
    ∀ g, g ≠ "a" →
      (predict warm vec51).2.drift_counters g = warm.drift_counters g :=
  C4_divergence_after_warmup ["a", "b"] (fun _ => 0) "a" 1 (fun _ => 0)
    (by simp) (by simp) (by norm_num)

end PredictionServer
